import Mathlib

/-!
# Verification of the chessiro-canvas core

A shallow embedding, in Lean 4, of the algorithmic core of the chessiro-canvas
chessboard component: the position model (FEN placement parsing and
serialization from `src/utils/fen.ts`), the coordinate transforms
(`src/utils/coords.ts`), the premove legality generator
(`src/utils/premove.ts`), the animation diff engine (`src/animation/anim.ts`),
and the pure state transformation at the heart of the interaction hook
(`src/interaction/useInteraction.ts`): `attemptMove`, `handlePromotionSelect`,
the premove replay effect and `toggleArrow`.

Modelling conventions:
* a `Square` is a pair of file index and rank index, each in `Fin 8`
  (the source uses two-character strings such as `"e4"`; the string is in
  bijection with the index pair, `file = charCodeAt(0) - 97`,
  `rank = charCodeAt(1) - 49`);
* a `Pieces` map (JS `Map<Square, Piece>`) is a function
  `Square → Option Piece`; the source only queries the maps with `get`/`set`,
  so insertion order is irrelevant to everything modelled here;
* JS numbers used as board coordinates are `ℤ`, pixel quantities are `ℚ`
  (the source computes with IEEE doubles; every claim proved below involves
  only arithmetic that is exact in both systems);
* effects (invoking the host's `onMove` callback, firing the premove
  set/unset hooks) are modelled by an explicit list of emitted `Emit` events.
-/

namespace Chessiro

/-- Piece color, source type `PieceColor = 'w' | 'b'`. -/
inductive PieceColor where
  | w
  | b
deriving DecidableEq, Repr, Fintype

/-- Piece role, source type `PieceRole = 'p' | 'n' | 'b' | 'r' | 'q' | 'k'`. -/
inductive PieceRole where
  | p
  | n
  | b
  | r
  | q
  | k
deriving DecidableEq, Repr, Fintype

/-- Source `interface Piece { color; role }`. -/
structure Piece where
  color : PieceColor
  role : PieceRole
deriving DecidableEq, Repr, Fintype

/-- A board square: (file index 0-7, rank index 0-7).  The source represents a
square as the two-character string `FILES[file] ++ RANKS[rank]`. -/
abbrev Square := Fin 8 × Fin 8

/-- Source `Pieces = Map<Square, Piece>`, queried only through `get`/`set`. -/
abbrev Pieces := Square → Option Piece

/-- The empty board (`new Map()`). -/
def emptyPieces : Pieces := fun _ => none

/-- Source `pieces.set(sq, pc)` on a map that is only read through `get`. -/
def setPiece (pieces : Pieces) (sq : Square) (pc : Piece) : Pieces :=
  fun s => if s = sq then some pc else pieces s

/-! ## Coordinate transforms (`src/utils/coords.ts`) -/

/-- Source `pos2square(pos)`: range-checks, then builds the square. -/
def pos2square (pos : ℤ × ℤ) : Option Square :=
  if h : pos.1 < 0 ∨ pos.1 > 7 ∨ pos.2 < 0 ∨ pos.2 > 7 then none
  else some (⟨pos.1.toNat, by omega⟩, ⟨pos.2.toNat, by omega⟩)

/-- Source `square2pos(sq) = [sq.charCodeAt(0) - 97, sq.charCodeAt(1) - 49]`. -/
def square2pos (sq : Square) : ℤ × ℤ := ((sq.1 : ℤ), (sq.2 : ℤ))

/-- Source `ScreenPos`; the bounding rectangle of the board element. -/
structure DOMRect where
  left : ℚ
  top : ℚ
  width : ℚ
  height : ℚ

/-- Source `pos2translate(pos, asWhite, boundsWidth, boundsHeight)`. -/
def pos2translate (pos : ℤ × ℤ) (asWhite : Bool) (boundsWidth boundsHeight : ℚ) :
    ℚ × ℚ :=
  let sqW := boundsWidth / 8
  let sqH := boundsHeight / 8
  (((if asWhite then pos.1 else 7 - pos.1 : ℤ) : ℚ) * sqW,
   ((if asWhite then 7 - pos.2 else pos.2 : ℤ) : ℚ) * sqH)

/-- Source `screenPos2square(clientX, clientY, asWhite, bounds)`; JS
`Math.floor` on a real quantity is `Int.floor` on the exact rational. -/
def screenPos2square (clientX clientY : ℚ) (asWhite : Bool) (bounds : DOMRect) :
    Option Square :=
  let file0 : ℤ := ⌊8 * (clientX - bounds.left) / bounds.width⌋
  let file : ℤ := if asWhite then file0 else 7 - file0
  let rank0 : ℤ := 7 - ⌊8 * (clientY - bounds.top) / bounds.height⌋
  let rank : ℤ := if asWhite then rank0 else 7 - rank0
  if file < 0 ∨ file > 7 ∨ rank < 0 ∨ rank > 7 then none
  else pos2square (file, rank)

/-- Source `squareCenter(sq, asWhite, bounds)`. -/
def squareCenter (sq : Square) (asWhite : Bool) (bounds : DOMRect) : ℚ × ℚ :=
  let pos := square2pos sq
  let xy := pos2translate pos asWhite bounds.width bounds.height
  (bounds.left + xy.1 + bounds.width / 16, bounds.top + xy.2 + bounds.height / 16)

/-- Source `distanceSq(a, b)`. -/
def distanceSq (a b : ℤ × ℤ) : ℤ := (a.1 - b.1) ^ 2 + (a.2 - b.2) ^ 2

/-- Source `samePiece(a, b)`. -/
def samePiece (a b : Piece) : Bool :=
  decide (a.color = b.color) && decide (a.role = b.role)

/-! ## Premove legality generator (`src/utils/premove.ts`) -/

/-- Source `isValid(f, r)`. -/
def isValid (f r : ℤ) : Bool :=
  decide (0 ≤ f) && decide (f < 8) && decide (0 ≤ r) && decide (r < 8)

/-- Source helper `sq(f, r) = FILES[f] + RANKS[r]`.  In the source it is only
invoked at indices already checked by `isValid`, where the `% 8` below is the
identity; the `% 8` merely makes the embedding total. -/
def sqOf (f r : ℤ) : Square :=
  (⟨f.toNat % 8, Nat.mod_lt _ (by norm_num)⟩, ⟨r.toNat % 8, Nat.mod_lt _ (by norm_num)⟩)

/-- Source closure `canTarget(tf, tr)` inside `premoveDests`. -/
def canTarget (pieces : Pieces) (color : PieceColor) (tf tr : ℤ) : Bool :=
  match pieces (sqOf tf tr) with
  | none => true
  | some occupant => decide (occupant.color ≠ color)

/-- One sliding direction of `premoveDests`:
`for (let i = 1; i < 8; i++) { if (!isValid(...)) break; if (canTarget(...)) push }`.
`fuel` counts the remaining iterations (initially 7), `i` the loop counter. -/
def slideRay (pieces : Pieces) (color : PieceColor) (f r df dr : ℤ) :
    ℕ → ℕ → List Square
  | 0, _ => []
  | fuel + 1, i =>
    let tf := f + df * (i : ℤ)
    let tr := r + dr * (i : ℤ)
    if isValid tf tr then
      (if canTarget pieces color tf tr then [sqOf tf tr] else []) ++
        slideRay pieces color f r df dr fuel (i + 1)
    else []

/-- Knight offsets in source order. -/
def knightOffsets : List (ℤ × ℤ) :=
  [(-2, -1), (-2, 1), (-1, -2), (-1, 2), (1, -2), (1, 2), (2, -1), (2, 1)]

/-- King (and queen-direction) offsets in source order. -/
def kingOffsets : List (ℤ × ℤ) :=
  [(1, 0), (-1, 0), (0, 1), (0, -1), (1, 1), (1, -1), (-1, 1), (-1, -1)]

/-- Bishop directions in source order. -/
def bishopDirs : List (ℤ × ℤ) := [(1, 1), (1, -1), (-1, 1), (-1, -1)]

/-- Rook directions in source order. -/
def rookDirs : List (ℤ × ℤ) := [(1, 0), (-1, 0), (0, 1), (0, -1)]

/-- Source `premoveDests(square, pieces, color)`, translated case by case. -/
def premoveDests (square : Square) (pieces : Pieces) (color : PieceColor) :
    List Square :=
  match pieces square with
  | none => []
  | some piece =>
    if piece.color ≠ color then []
    else
      let f : ℤ := (square.1 : ℤ)
      let r : ℤ := (square.2 : ℤ)
      match piece.role with
      | PieceRole.p =>
        let dir : ℤ := if color = PieceColor.w then 1 else -1
        let startRank : ℤ := if color = PieceColor.w then 1 else 6
        (if isValid f (r + dir) then
          sqOf f (r + dir) ::
            (if r = startRank ∧ isValid f (r + 2 * dir) then [sqOf f (r + 2 * dir)] else [])
        else []) ++
        (([-1, 1] : List ℤ).foldr (fun df acc =>
          (if isValid (f + df) (r + dir) then [sqOf (f + df) (r + dir)] else []) ++ acc) [])
      | PieceRole.n =>
        knightOffsets.foldr (fun od acc =>
          (if isValid (f + od.1) (r + od.2) && canTarget pieces color (f + od.1) (r + od.2)
           then [sqOf (f + od.1) (r + od.2)] else []) ++ acc) []
      | PieceRole.b =>
        bishopDirs.foldr (fun d acc => slideRay pieces color f r d.1 d.2 7 1 ++ acc) []
      | PieceRole.r =>
        rookDirs.foldr (fun d acc => slideRay pieces color f r d.1 d.2 7 1 ++ acc) []
      | PieceRole.q =>
        kingOffsets.foldr (fun d acc => slideRay pieces color f r d.1 d.2 7 1 ++ acc) []
      | PieceRole.k =>
        (kingOffsets.foldr (fun od acc =>
          (if isValid (f + od.1) (r + od.2) && canTarget pieces color (f + od.1) (r + od.2)
           then [sqOf (f + od.1) (r + od.2)] else []) ++ acc) []) ++
        (let homeRank : ℤ := if color = PieceColor.w then 0 else 7
         if f = 4 ∧ r = homeRank then
           (if canTarget pieces color 6 homeRank then [sqOf 6 homeRank] else []) ++
           (if canTarget pieces color 2 homeRank then [sqOf 2 homeRank] else [])
         else [])

/-! ## Position model (`src/utils/fen.ts`) -/

/-- Source `ch.toLowerCase()`.  All characters the parser ever distinguishes are
ASCII; this is the ASCII restriction of the JS function. -/
def toLowerChar (c : Char) : Char :=
  if 65 ≤ c.toNat ∧ c.toNat ≤ 90 then Char.ofNat (c.toNat + 32) else c

/-- Source `ch.toUpperCase()` (ASCII restriction, used on role letters only). -/
def toUpperChar (c : Char) : Char :=
  if 97 ≤ c.toNat ∧ c.toNat ≤ 122 then Char.ofNat (c.toNat - 32) else c

/-- Source `ROLE_MAP` lookup: `ROLE_MAP[lower]`. -/
def charToRole (c : Char) : Option PieceRole :=
  if c = 'p' then some PieceRole.p
  else if c = 'r' then some PieceRole.r
  else if c = 'n' then some PieceRole.n
  else if c = 'b' then some PieceRole.b
  else if c = 'q' then some PieceRole.q
  else if c = 'k' then some PieceRole.k
  else none

/-- The main loop of `readFen`, one constructor per iteration of
`for (const ch of placement)`.  `rank` starts at 7 and is only ever
decremented (the `/` case breaks as soon as it would go below 0), so it
always stays below 8; the `rank < 8` conjunct in the guard below is the
bound `RANKS[rank]` silently enjoys in the source and never fails from the
entry state. -/
def readFenAux : List Char → ℤ → ℕ → Pieces → Pieces
  | [], _, _, acc => acc
  | c :: rest, rank, file, acc =>
    if c = '/' then
      if rank - 1 < 0 then acc else readFenAux rest (rank - 1) 0 acc
    else if c = ' ' ∨ c = '[' then acc
    else if 49 ≤ c.toNat ∧ c.toNat ≤ 56 then
      readFenAux rest rank (file + (c.toNat - 48)) acc
    else
      match charToRole (toLowerChar c) with
      | some role =>
        let newAcc :=
          if file < 8 ∧ 0 ≤ rank ∧ rank < 8 then
            setPiece acc (sqOf (file : ℤ) rank)
              ⟨if c = toLowerChar c then PieceColor.b else PieceColor.w, role⟩
          else acc
        readFenAux rest rank (file + 1) newAcc
      | none => readFenAux rest rank (file + 1) acc

/-- Source `INITIAL_FEN` placement string. -/
def INITIAL_FEN : List Char :=
  "rnbqkbnr/pppppppp/8/8/8/8/PPPPPPPP/RNBQKBNR".toList

/-- Source `readFen(fen)`.  `fen.split(' ')[0] || fen` keeps the segment
before the first space, falling back to the whole string when that segment is
empty.  The source's `readFen(INITIAL_FEN)` recursion is inlined: the initial
placement contains no space and differs from `'start'`, so that call is
exactly `readFenAux INITIAL_FEN 7 0 emptyPieces`. -/
def readFen (fen : List Char) : Pieces :=
  let firstSeg := fen.takeWhile (fun c => c != ' ')
  let placement := if firstSeg = [] then fen else firstSeg
  if placement = "start".toList then readFenAux INITIAL_FEN 7 0 emptyPieces
  else readFenAux placement 7 0 emptyPieces

/-- Source `rankStr += empty` for the empty-run counter: within one rank of 8 files
the counter lies in 1..8, so the number prints as a single digit. -/
def digitChar (e : ℕ) : Char :=
  if e = 1 then '1'
  else if e = 2 then '2'
  else if e = 3 then '3'
  else if e = 4 then '4'
  else if e = 5 then '5'
  else if e = 6 then '6'
  else if e = 7 then '7'
  else if e = 8 then '8'
  else '0'

/-- The lowercase letter of a role (the JS role value itself is the letter). -/
def roleChar : PieceRole → Char
  | PieceRole.p => 'p'
  | PieceRole.n => 'n'
  | PieceRole.b => 'b'
  | PieceRole.r => 'r'
  | PieceRole.q => 'q'
  | PieceRole.k => 'k'

/-- Source `let ch = piece.role; if (piece.color === 'w') ch = ch.toUpperCase()`. -/
def pieceChar (pc : Piece) : Char :=
  if pc.color = PieceColor.w then toUpperChar (roleChar pc.role) else roleChar pc.role

/-- Source `if (empty > 0) rankStr += empty`. -/
def flushEmpty (e : ℕ) : List Char := if 0 < e then [digitChar e] else []

/-- The files `0..7` in iteration order of `for (let f = 0; f < 8; f++)`. -/
def allFiles : List (Fin 8) := [0, 1, 2, 3, 4, 5, 6, 7]

/-- The inner loop of `writeFen` over one rank: walks the remaining files
`fs` with the current empty-run counter `e`, emitting the rank string. -/
def writeRankAux (pieces : Pieces) (r : Fin 8) : List (Fin 8) → ℕ → List Char
  | [], e => flushEmpty e
  | f :: fs, e =>
    match pieces (f, r) with
    | some pc => flushEmpty e ++ pieceChar pc :: writeRankAux pieces r fs 0
    | none => writeRankAux pieces r fs (e + 1)

/-- One rank string of `writeFen`. -/
def writeRank (pieces : Pieces) (r : Fin 8) : List Char :=
  writeRankAux pieces r allFiles 0

/-- Source `ranks.join('/')`. -/
def joinSlash : List (List Char) → List Char
  | [] => []
  | [s] => s
  | s :: rest => s ++ '/' :: joinSlash rest

/-- The ranks `7..0` in iteration order of `for (let r = 7; r >= 0; r--)`. -/
def ranksDesc : List (Fin 8) := [7, 6, 5, 4, 3, 2, 1, 0]

/-- Source `writeFen(pieces)`. -/
def writeFen (pieces : Pieces) : List Char :=
  joinSlash (ranksDesc.map (writeRank pieces))

/-! ## Animation diff engine (`src/animation/anim.ts`) -/

/-- Source `ALL_SQUARES = FILES.flatMap(f => RANKS.map(r => f + r))`:
files outermost, ranks innermost. -/
def ALL_SQUARES : List Square :=
  allFiles.foldr (fun f acc => (allFiles.map (fun r => ((f, r) : Square))) ++ acc) []

/-- Source local `interface AnimPiece { square; piece }`. -/
structure AnimPiece where
  square : Square
  piece : Piece
deriving DecidableEq, Repr

/-- Source `AnimationVector`. -/
structure AnimationVector where
  fromPos : ℤ × ℤ
  toPos : ℤ × ℤ
  currentX : ℤ
  currentY : ℤ
deriving DecidableEq, Repr

/-- Source `AnimationPlan`; the two maps, written only through `set` at
distinct keys and in a fixed order, are kept as ordered association lists. -/
structure AnimationPlan where
  anims : List (Square × AnimationVector)
  fadings : List (Square × Piece)
deriving DecidableEq, Repr

/-- The `missings` list built by the classification loop of
`computeAnimPlan` (same traversal of `ALL_SQUARES`, same push order; the
source fills `missings` and `news` in the single pass that this definition
and `news` below split in two). -/
def missings (prevPieces nextPieces : Pieces) : List AnimPiece :=
  ALL_SQUARES.filterMap fun sq =>
    match nextPieces sq, prevPieces sq with
    | some next, some prev => if samePiece prev next then none else some ⟨sq, prev⟩
    | some _, none => none
    | none, some prev => some ⟨sq, prev⟩
    | none, none => none

/-- The `news` list built by the classification loop of `computeAnimPlan`. -/
def news (prevPieces nextPieces : Pieces) : List AnimPiece :=
  ALL_SQUARES.filterMap fun sq =>
    match nextPieces sq, prevPieces sq with
    | some next, some prev => if samePiece prev next then none else some ⟨sq, next⟩
    | some next, none => some ⟨sq, next⟩
    | none, _ => none

/-- Source `candidates.sort((a, b) => dist a - dist b)[0]` for a stable ascending
sort: the first element attaining the minimum distance, i.e. a left fold
that replaces the current best only on strictly smaller distance. -/
def minByDist (dist : AnimPiece → ℤ) : List AnimPiece → Option AnimPiece
  | [] => none
  | c :: cs => some (cs.foldl (fun best x => if dist x < dist best then x else best) c)

/-- The greedy matching loop of `computeAnimPlan`: walks `news` in order,
accumulating `anims` entries and the `animedOrigs` list of consumed missing
squares. -/
def greedyMatch (miss : List AnimPiece) :
    List AnimPiece → List (Square × AnimationVector) → List Square →
    List (Square × AnimationVector) × List Square
  | [], anims, origs => (anims, origs)
  | newP :: rest, anims, origs =>
    let newPos := square2pos newP.square
    let candidates := miss.filter fun m =>
      samePiece m.piece newP.piece && !(decide (m.square ∈ origs))
    match minByDist (fun m => distanceSq (square2pos m.square) newPos) candidates with
    | none => greedyMatch miss rest anims origs
    | some closest =>
      let fromPos := square2pos closest.square
      let toPos := newPos
      greedyMatch miss rest
        (anims ++ [(newP.square,
          ⟨fromPos, toPos, fromPos.1 - toPos.1, fromPos.2 - toPos.2⟩)])
        (origs ++ [closest.square])

/-- The `animedOrigs` list after the greedy loop: the consumed missing
squares of `computeAnimPlan prev next`. -/
def consumedOrigs (prevPieces nextPieces : Pieces) : List Square :=
  (greedyMatch (missings prevPieces nextPieces) (news prevPieces nextPieces) [] []).2

/-- Source `computeAnimPlan(prevPieces, nextPieces)`. -/
def computeAnimPlan (prevPieces nextPieces : Pieces) : AnimationPlan :=
  let miss := missings prevPieces nextPieces
  let res := greedyMatch miss (news prevPieces nextPieces) [] []
  { anims := res.1
    fadings := (miss.filter fun m => !(decide (m.square ∈ res.2))).map
      fun m => (m.square, m.piece) }

/-! ## Interaction state machine (`src/interaction/useInteraction.ts`)

The pure heart of the hook: `attemptMove`, `handlePromotionSelect`, the
premove replay effect and `toggleArrow`, modelled as functions from an
environment (the props consulted) and the component state to the new state
plus the list of host-visible effects emitted. -/

/-- Source `PromotionPiece = 'q' | 'r' | 'b' | 'n'`. -/
inductive PromotionPiece where
  | q
  | r
  | b
  | n
deriving DecidableEq, Repr

/-- Source `PromotionContext { from; to; color }`. -/
structure PromotionContext where
  from_ : Square
  to_ : Square
  color : PieceColor
deriving DecidableEq, Repr

/-- Host-visible effects: the `onMove` callback invocation and the premove
`set`/`unset` hook notifications (`premovable.events?.set?./unset?.`; firing
is recorded whether or not the host installed a hook). -/
inductive Emit where
  | moveCall (from_ to_ : Square) (promotion : Option PromotionPiece)
  | premoveSetHook (from_ to_ : Square)
  | premoveUnsetHook
deriving DecidableEq, Repr

/-- The component state touched by the modelled transitions: the
`useState` cells `selectedSquare`, `legalSquares`, `premoveSquares`,
`premoveCurrent` and `pendingPromotion`. -/
structure InteractionCore where
  selectedSquare : Option Square
  legalSquares : List Square
  premoveSquares : List Square
  premoveCurrent : Option (Square × Square)
  pendingPromotion : Option PromotionContext
deriving DecidableEq, Repr

/-- The props the modelled transitions consult: `onMove` (absent when no
move-acceptance callback is registered), `interactive`, the external legal
destination table `dests` (`Dests = Map<Square, Square[]>`, looked up as
`dests.get(from) || []`), the current `pieces`, `premovable?.enabled` and
`turnColor` (absent in free mode). -/
structure InteractionEnv where
  onMove : Option (Square → Square → Option PromotionPiece → Bool)
  interactive : Bool
  dests : Option (Square → List Square)
  pieces : Pieces
  premovableEnabled : Bool
  turnColor : Option PieceColor

/-- Source `getDestsForSquare(sq)`: `if (dests) return dests.get(sq) || []`. -/
def getDestsForSquare (env : InteractionEnv) (sq : Square) : List Square :=
  match env.dests with
  | some d => d sq
  | none => []

/-- Outcome of `attemptMove`: `'pending' | boolean`. -/
inductive MoveResult where
  | pending
  | result (success : Bool)
deriving DecidableEq, Repr

/-- Tail of `attemptMove`: `const success = onMove(from, to, promotion);
if (success) { clear selection/highlights } return success`. -/
def runMoveCallback (st : InteractionCore) (from_ to_ : Square)
    (promotion : Option PromotionPiece)
    (onMove : Square → Square → Option PromotionPiece → Bool) :
    MoveResult × InteractionCore × List Emit :=
  let success := onMove from_ to_ promotion
  (MoveResult.result success,
   if success then
     { st with selectedSquare := none, legalSquares := [], premoveSquares := [] }
   else st,
   [Emit.moveCall from_ to_ promotion])

/-- The pawn-promotion suspension check of `attemptMove`
(`piece?.role === 'p' && !promotion` and the far-rank test on
`parseInt(to[1])`: rank character `'8'` is index 7, `'1'` is index 0),
followed by the callback invocation. -/
def promoCheckAndRun (env : InteractionEnv) (st : InteractionCore)
    (from_ to_ : Square) (promotion : Option PromotionPiece)
    (onMove : Square → Square → Option PromotionPiece → Bool) :
    MoveResult × InteractionCore × List Emit :=
  match env.pieces from_, promotion with
  | some piece, none =>
    if piece.role = PieceRole.p ∧
        ((piece.color = PieceColor.w ∧ to_.2 = (7 : Fin 8)) ∨
         (piece.color = PieceColor.b ∧ to_.2 = (0 : Fin 8))) then
      (MoveResult.pending,
       { st with pendingPromotion := some ⟨from_, to_, piece.color⟩ }, [])
    else runMoveCallback st from_ to_ promotion onMove
  | _, _ => runMoveCallback st from_ to_ promotion onMove

/-- Source `attemptMove(from, to, promotion?)`. -/
def attemptMove (env : InteractionEnv) (st : InteractionCore)
    (from_ to_ : Square) (promotion : Option PromotionPiece) :
    MoveResult × InteractionCore × List Emit :=
  match env.onMove with
  | none => (MoveResult.result false, st, [])
  | some onMove =>
    if env.interactive = false then (MoveResult.result false, st, [])
    else
      match env.dests with
      | some d =>
        if to_ ∉ d from_ then (MoveResult.result false, st, [])
        else promoCheckAndRun env st from_ to_ promotion onMove
      | none => promoCheckAndRun env st from_ to_ promotion onMove

/-- Source `handlePromotionSelect(piece)`: bail out when nothing is pending,
otherwise clear the pending promotion and re-run `attemptMove` with the
chosen piece. -/
def handlePromotionSelect (env : InteractionEnv) (st : InteractionCore)
    (piece : PromotionPiece) : InteractionCore × List Emit :=
  match st.pendingPromotion with
  | none => (st, [])
  | some pp =>
    let st2 := { st with pendingPromotion := none }
    let res := attemptMove env st2 pp.from_ pp.to_ (some piece)
    (res.2.1, res.2.2)

/-- The body of the premove replay `useEffect` (runs when `turnColor`
changes): if a premove is stored and premoves are enabled and the piece now
on `from` belongs to the side to move, replay it when `to` is still listed
(or no table is supplied), else cancel it silently; in both cases the stored
premove clears and the unset hook fires.  The source invokes the raw
`onMove?.(from, to)` callback, discarding its result. -/
def premoveReplayEffect (env : InteractionEnv) (st : InteractionCore) :
    InteractionCore × List Emit :=
  match st.premoveCurrent with
  | none => (st, [])
  | some fromTo =>
    if env.premovableEnabled = false then (st, [])
    else
      match env.pieces fromTo.1 with
      | some piece =>
        if env.turnColor = some piece.color then
          let replay : InteractionCore × List Emit :=
            ({ st with premoveCurrent := none },
             Emit.premoveUnsetHook ::
               (match env.onMove with
                | some _ => [Emit.moveCall fromTo.1 fromTo.2 none]
                | none => []))
          match env.dests with
          | some d =>
            if fromTo.2 ∈ d fromTo.1 then replay
            else ({ st with premoveCurrent := none }, [Emit.premoveUnsetHook])
          | none => replay
        else (st, [])
      | none => (st, [])

/-! ## Arrow overlays (`toggleArrow` in `src/interaction/useInteraction.ts`) -/

/-- Source `Arrow { startSquare; endSquare; color; brush? }`. -/
structure Arrow where
  startSquare : Square
  endSquare : Square
  color : String
  brush : Option String := none
deriving DecidableEq, Repr

/-- The list transformation of `toggleArrow(start, end, color)`: arrows are
keyed by the string `` `${startSquare}-${endSquare}` ``, which for the
two-character square names coincides with equality of the (start, end) pair;
if any arrow with the key exists all of them are removed, otherwise a new
arrow with the toggled color (and no brush) is appended. -/
def toggleArrowList (current : List Arrow) (start end_ : Square)
    (color : String) : List Arrow :=
  let keyMatch : Arrow → Bool := fun a =>
    decide (a.startSquare = start ∧ a.endSquare = end_)
  if current.any keyMatch then current.filter (fun a => !keyMatch a)
  else current ++ [{ startSquare := start, endSquare := end_, color := color }]

/-! ## Named squares and concrete fixtures used by the theorems below -/

/-- Square `a1`. -/
def a1 : Square := (0, 0)

/-- Square `b2`. -/
def b2 : Square := (1, 1)

/-- Square `d4`. -/
def d4 : Square := (3, 3)

/-- Square `b1`. -/
def b1 : Square := (1, 0)

/-- Square `a3`. -/
def a3 : Square := (0, 2)

/-- Square `c3`. -/
def c3 : Square := (2, 2)

/-- Square `d2`. -/
def d2 : Square := (3, 1)

/-- Square `c1`. -/
def c1 : Square := (2, 0)

/-- Square `e2`. -/
def e2 : Square := (4, 1)

/-- Square `e4`. -/
def e4 : Square := (4, 3)

/-- Square `e7`. -/
def e7 : Square := (4, 6)

/-- Square `e8`. -/
def e8 : Square := (4, 7)

/-- Square `e5`. -/
def e5 : Square := (4, 4)

/-- A white pawn. -/
def wP : Piece := ⟨PieceColor.w, PieceRole.p⟩

/-- A white bishop. -/
def wB : Piece := ⟨PieceColor.w, PieceRole.b⟩

/-- A board whose only occupant is a rook of color `c` on `d4`. -/
def rookOnlyD4 (c : PieceColor) : Pieces :=
  fun s => if s = d4 then some ⟨c, PieceRole.r⟩ else none

/-- A board whose only occupant is a knight of color `c` on `b1`. -/
def knightOnlyB1 (c : PieceColor) : Pieces :=
  fun s => if s = b1 then some ⟨c, PieceRole.n⟩ else none

/-- Previous position of the pawn-move animation fixture: a lone white pawn
on `e2`. -/
def pawnPrev : Pieces := fun s => if s = e2 then some wP else none

/-- Next position of the pawn-move animation fixture: that pawn on `e4`. -/
def pawnNext : Pieces := fun s => if s = e4 then some wP else none

/-- Previous position of the fade fixture: a lone white bishop on `c1`. -/
def bishopPrev : Pieces := fun s => if s = c1 then some wB else none

/-- A board whose only occupant is a white pawn on `e7`. -/
def pawnOnE7 : Pieces := fun s => if s = e7 then some wP else none

/-- The interaction state with nothing selected, stored or pending. -/
def idleState : InteractionCore :=
  { selectedSquare := none, legalSquares := [], premoveSquares := [],
    premoveCurrent := none, pendingPromotion := none }

/-- Environment with no move-acceptance callback registered. -/
def envNoCallback : InteractionEnv :=
  { onMove := none, interactive := true, dests := none, pieces := emptyPieces,
    premovableEnabled := false, turnColor := none }

/-- A move-acceptance callback that accepts everything. -/
def alwaysAccept : Square → Square → Option PromotionPiece → Bool := fun _ _ _ => true

/-- Environment for the promotion fixture: callback registered, interactive,
no external legal-destination table, a white pawn on `e7`. -/
def envPromo : InteractionEnv :=
  { onMove := some alwaysAccept, interactive := true, dests := none,
    pieces := pawnOnE7, premovableEnabled := false, turnColor := some PieceColor.w }

/-- Environment for the premove replay fixture: premoves enabled, callback
registered, no table, a white pawn on `e7`, white to move. -/
def envReplay : InteractionEnv :=
  { onMove := some alwaysAccept, interactive := true, dests := none,
    pieces := pawnOnE7, premovableEnabled := true, turnColor := some PieceColor.w }

/-- State with the premove `(e7, e5)` stored. -/
def premoveArmedState : InteractionCore :=
  { idleState with premoveCurrent := some (e7, e5) }

/-! ## Proof-support predicates for the FEN round trip -/

/-- The predicate `isTailFrom fs n` holds when `fs` is exactly the file list `n, n+1, …, 7`
(the suffix of the file loop of `writeFen` that remains once `n` files have
been consumed by emitted pieces and the pending empty-run counter). -/
def isTailFrom : List (Fin 8) → ℕ → Bool
  | [], n => n == 8
  | x :: xs, n => x.val == n && isTailFrom xs (n + 1)

/-- The map `overrideOn p acc r fs`: the map `acc` overwritten, on rank `r` at the
files listed in `fs`, by the pieces of `p` (empty squares of `p` overwrite
nothing — the parser only ever inserts).  Parsing the emitted rank-`r` string
on top of `acc` yields exactly this map. -/
def overrideOn (p acc : Pieces) (r : Fin 8) (fs : List (Fin 8)) : Pieces :=
  fun s =>
    match p s with
    | some pc => if s.2 = r ∧ s.1 ∈ fs then some pc else acc s
    | none => acc s

/-! # Theorems

First general-purpose lemmas about the embedded definitions, then one theorem
(plus witness / counterexample where required) per claim. -/

/-- The test `samePiece` is structural equality of pieces. -/
theorem samePiece_iff (a b : Piece) : samePiece a b = true ↔ a = b := by
  cases a
  cases b
  simp [samePiece, Piece.mk.injEq]

/-- Every file index appears in the file loop. -/
theorem mem_allFiles (x : Fin 8) : x ∈ allFiles := by
  revert x
  decide

/-- Claim C10: `premoveDests` returns the empty list whenever the origin
square is unoccupied or occupied by a piece of the other color, and it can
return a nonempty destination list only for a same-color occupant of the
origin square (the function is total, so it never throws). -/
theorem premoveDests_own_color_only (square : Square) (pieces : Pieces)
    (color : PieceColor) :
    ((pieces square = none ∨ ∃ pc, pieces square = some pc ∧ pc.color ≠ color) →
      premoveDests square pieces color = []) ∧
    (premoveDests square pieces color ≠ [] →
      ∃ pc, pieces square = some pc ∧ pc.color = color) := by
  constructor
  · rintro (h | ⟨pc, hpc, hne⟩)
    · simp [premoveDests, h]
    · simp [premoveDests, hpc, hne]
  · intro hne
    rcases h : pieces square with _ | pc
    · simp [premoveDests, h] at hne
    · by_cases hc : pc.color = color
      · refine ⟨pc, ?_, hc⟩
        simp [h]
      · simp [premoveDests, h, hc] at hne

/-- Witness for `premoveDests_own_color_only`: on the empty board every
query returns the empty list. -/
theorem premoveDests_own_color_only_witness :
    premoveDests a1 emptyPieces PieceColor.w = [] :=
  (premoveDests_own_color_only a1 emptyPieces PieceColor.w).1 (Or.inl rfl)

set_option maxRecDepth 8000 in
/-- Claim C7: on a board whose only occupant is a rook of the given color on
`d4`, `premoveDests` returns exactly the 14 squares sharing d4's file or
rank, d4 itself excluded; on a board whose only occupant is a knight of the
given color on `b1`, it returns exactly `{a3, c3, d2}`. -/
theorem premoveDests_geometry :
    ∀ c : PieceColor,
      ((premoveDests d4 (rookOnlyD4 c) c).length = 14 ∧
        ∀ s : Square, s ∈ premoveDests d4 (rookOnlyD4 c) c ↔
          ((s.1 = (3 : Fin 8) ∨ s.2 = (3 : Fin 8)) ∧ s ≠ d4)) ∧
      premoveDests b1 (knightOnlyB1 c) c = [a3, c3, d2] := by
  decide

/-- Claim C4: `attemptMove` returns `false`, emits nothing (in particular
never invokes the move-acceptance callback) and leaves the state — selection,
legal squares and premove squares included — untouched whenever the callback
is unregistered, or interaction is disabled, or a legal-destination table is
supplied that does not list `to` under `from`. -/
theorem attemptMove_rejects (env : InteractionEnv) (st : InteractionCore)
    (from_ to_ : Square) (promotion : Option PromotionPiece)
    (h : env.onMove = none ∨ env.interactive = false ∨
      ∃ d, env.dests = some d ∧ to_ ∉ d from_) :
    attemptMove env st from_ to_ promotion = (MoveResult.result false, st, []) := by
  rcases h with h | h | ⟨d, hd, hto⟩
  · simp [attemptMove, h]
  · rcases hcb : env.onMove with _ | f
    · simp [attemptMove, hcb]
    · simp [attemptMove, hcb, h]
  · rcases hcb : env.onMove with _ | f
    · simp [attemptMove, hcb]
    · by_cases hin : env.interactive = false
      · simp [attemptMove, hcb, hin]
      · simp [attemptMove, hcb, hin, hd, hto]

/-- Witness for `attemptMove_rejects`: with no callback registered the
attempt fails and changes nothing. -/
theorem attemptMove_rejects_witness :
    attemptMove envNoCallback idleState e2 e4 none =
      (MoveResult.result false, idleState, []) :=
  attemptMove_rejects envNoCallback idleState e2 e4 none (Or.inl rfl)

/-- Claim C9, counterexample: toggling the (a1, b2) arrow twice on a list
holding a red (a1, b2) arrow yields a blue one — identity for toggling is
the (start, end) pair regardless of color, so the second toggle re-adds the
arrow in the new color and the list does not return to its original
contents. -/
theorem toggleArrow_double_toggle_counterexample :
    toggleArrowList
        (toggleArrowList [{ startSquare := a1, endSquare := b2, color := "red" }]
          a1 b2 "blue") a1 b2 "blue" ≠
      [{ startSquare := a1, endSquare := b2, color := "red" }] := by
  decide

/-- Claim C9, amended: toggling the same (start, end) pair twice returns the
overlay list to its original contents whenever no arrow with that pair is
present initially. -/
theorem toggleArrow_double_toggle_of_absent (current : List Arrow)
    (start end_ : Square) (color : String)
    (h : ∀ a ∈ current, ¬(a.startSquare = start ∧ a.endSquare = end_)) :
    toggleArrowList (toggleArrowList current start end_ color) start end_ color =
      current := by
  have hany : (current.any fun a =>
      decide (a.startSquare = start ∧ a.endSquare = end_)) = false := by
    rw [List.any_eq_false]
    intro a ha
    have := h a ha
    simp only [decide_eq_true_eq]
    tauto
  have hfilter : (current.filter fun a =>
      !decide (a.startSquare = start ∧ a.endSquare = end_)) = current := by
    rw [List.filter_eq_self]
    intro a ha
    have := h a ha
    simp only [Bool.not_eq_true', decide_eq_false_iff_not]
    tauto
  simp only [toggleArrowList, hany, Bool.false_eq_true, if_false]
  rw [if_pos]
  · rw [List.filter_append, hfilter]
    simp
  · rw [List.any_append]
    simp

/-- Witness for `toggleArrow_double_toggle_of_absent`: double-toggling on the
empty overlay list restores the empty list. -/
theorem toggleArrow_double_toggle_witness :
    toggleArrowList (toggleArrowList [] a1 b2 "red") a1 b2 "red" = [] :=
  toggleArrow_double_toggle_of_absent [] a1 b2 "red" (by simp)

/-- The floor of an integer plus one half. -/
theorem floor_intCast_add_half (c : ℤ) : ⌊(c : ℚ) + 1 / 2⌋ = c := by
  rw [add_comm, Int.floor_add_int]
  have h : ⌊(1 / 2 : ℚ)⌋ = 0 := Int.floor_eq_zero_iff.mpr (by norm_num)
  rw [h]
  ring

/-- The screen coordinate of a square's center along one axis maps back to
its board coordinate under `Math.floor`. -/
theorem floor_center_axis (c : ℤ) (l w : ℚ) (hw : 0 < w) :
    ⌊8 * ((l + (c : ℚ) * (w / 8) + w / 16) - l) / w⌋ = c := by
  have h : 8 * ((l + (c : ℚ) * (w / 8) + w / 16) - l) / w = (c : ℚ) + 1 / 2 := by
    field_simp
    ring
  rw [h, floor_intCast_add_half]

/-- Claim C2: for every square and both orientations, mapping the square to
board coordinates with `square2pos`, to a screen offset with `pos2translate`
for a board of positive width and height, and the center of the resulting
square (offset by the bounding rectangle's origin, i.e. `squareCenter`) back
with `screenPos2square` under the same orientation and bounds returns the
original square. -/
theorem screenPos2square_roundtrip (sq : Square) (asWhite : Bool)
    (bounds : DOMRect) (hW : 0 < bounds.width) (hH : 0 < bounds.height) :
    screenPos2square (squareCenter sq asWhite bounds).1
      (squareCenter sq asWhite bounds).2 asWhite bounds = some sq := by
  obtain ⟨file, rank⟩ := sq
  have hf8 : (file : ℤ) < 8 := by exact_mod_cast file.isLt
  have hr8 : (rank : ℤ) < 8 := by exact_mod_cast rank.isLt
  have hf0 : (0 : ℤ) ≤ (file : ℤ) := Int.natCast_nonneg _
  have hr0 : (0 : ℤ) ≤ (rank : ℤ) := Int.natCast_nonneg _
  cases asWhite with
  | false =>
    have hx := floor_center_axis (7 - (file : ℤ)) bounds.left bounds.width hW
    have hy := floor_center_axis ((rank : ℤ)) bounds.top bounds.height hH
    simp only [squareCenter, pos2translate, square2pos, screenPos2square,
      Int.cast_sub, Int.cast_ofNat] at hx hy ⊢
    push_cast at hx hy ⊢
    rw [hx, hy]
    have h7f : 7 - (7 - (file : ℤ)) = (file : ℤ) := by ring
    have h7r : 7 - (7 - (rank : ℤ)) = (rank : ℤ) := by ring
    rw [h7f, h7r]
    rw [if_neg (by omega)]
    simp only [pos2square]
    rw [dif_neg (by omega)]
    simp
  | true =>
    have hx := floor_center_axis ((file : ℤ)) bounds.left bounds.width hW
    have hy := floor_center_axis (7 - (rank : ℤ)) bounds.top bounds.height hH
    simp only [squareCenter, pos2translate, square2pos, screenPos2square,
      Int.cast_sub, Int.cast_ofNat] at hx hy ⊢
    push_cast at hx hy ⊢
    rw [hx, hy]
    have h7r : 7 - (7 - (rank : ℤ)) = (rank : ℤ) := by ring
    rw [h7r]
    rw [if_neg (by omega)]
    simp only [pos2square]
    rw [dif_neg (by omega)]
    simp

/-- Witness for `screenPos2square_roundtrip`: the center of `e2` on a white-
bottom 8×8 board at the origin maps back to `e2`. -/
theorem screenPos2square_roundtrip_witness :
    (0 : ℚ) < 8 ∧
      screenPos2square (squareCenter e2 true ⟨0, 0, 8, 8⟩).1
        (squareCenter e2 true ⟨0, 0, 8, 8⟩).2 true ⟨0, 0, 8, 8⟩ = some e2 :=
  ⟨by norm_num,
   screenPos2square_roundtrip e2 true ⟨0, 0, 8, 8⟩ (by norm_num) (by norm_num)⟩

/-- Claim C5: with a callback registered, interaction enabled and the
destination not externally rejected, `attemptMove` for a pawn reaching its
far rank with no promotion argument returns `'pending'`, records the pending
promotion `{from, to, color}` and emits nothing (the callback is not
invoked); a subsequent `handlePromotionSelect` with a chosen piece clears the
pending promotion and invokes the callback exactly once with
`(from, to, chosen)`. -/
theorem promotion_flow (env : InteractionEnv) (st : InteractionCore)
    (from_ to_ : Square) (f : Square → Square → Option PromotionPiece → Bool)
    (c : PieceColor) (chosen : PromotionPiece)
    (hcb : env.onMove = some f) (hint : env.interactive = true)
    (hdests : env.dests = none ∨ ∃ d, env.dests = some d ∧ to_ ∈ d from_)
    (hpiece : env.pieces from_ = some ⟨c, PieceRole.p⟩)
    (hfar : (c = PieceColor.w ∧ to_.2 = (7 : Fin 8)) ∨
      (c = PieceColor.b ∧ to_.2 = (0 : Fin 8))) :
    attemptMove env st from_ to_ none =
      (MoveResult.pending,
       { st with pendingPromotion := some ⟨from_, to_, c⟩ }, []) ∧
    (handlePromotionSelect env
        { st with pendingPromotion := some ⟨from_, to_, c⟩ } chosen).1.pendingPromotion
      = none ∧
    (handlePromotionSelect env
        { st with pendingPromotion := some ⟨from_, to_, c⟩ } chosen).2
      = [Emit.moveCall from_ to_ (some chosen)] := by
  have hpromo : promoCheckAndRun env st from_ to_ none f =
      (MoveResult.pending,
       { st with pendingPromotion := some ⟨from_, to_, c⟩ }, []) := by
    simp only [promoCheckAndRun, hpiece]
    rw [if_pos]
    exact ⟨trivial, hfar⟩
  refine ⟨?_, ?_, ?_⟩
  · rcases hdests with hd | ⟨d, hd, hto⟩
    · simp [attemptMove, hcb, hint, hd, hpromo]
    · simp [attemptMove, hcb, hint, hd, hto, hpromo]
  · simp only [handlePromotionSelect]
    rcases hdests with hd | ⟨d, hd, hto⟩
    · cases hf : f from_ to_ (some chosen) <;>
        simp [attemptMove, promoCheckAndRun, runMoveCallback, hcb, hint, hd,
          hpiece, hf]
    · cases hf : f from_ to_ (some chosen) <;>
        simp [attemptMove, promoCheckAndRun, runMoveCallback, hcb, hint, hd,
          hpiece, hf, hto]
  · simp only [handlePromotionSelect]
    rcases hdests with hd | ⟨d, hd, hto⟩
    · cases hf : f from_ to_ (some chosen) <;>
        simp [attemptMove, promoCheckAndRun, runMoveCallback, hcb, hint, hd,
          hpiece, hf]
    · cases hf : f from_ to_ (some chosen) <;>
        simp [attemptMove, promoCheckAndRun, runMoveCallback, hcb, hint, hd,
          hpiece, hf, hto]

/-- Witness for `promotion_flow`: white pawn `e7-e8`, then choosing a queen,
invokes the callback exactly once with `(e7, e8, queen)`. -/
theorem promotion_flow_witness :
    attemptMove envPromo idleState e7 e8 none =
      (MoveResult.pending,
       { idleState with pendingPromotion := some ⟨e7, e8, PieceColor.w⟩ }, []) ∧
    (handlePromotionSelect envPromo
        { idleState with pendingPromotion := some ⟨e7, e8, PieceColor.w⟩ }
        PromotionPiece.q).1.pendingPromotion = none ∧
    (handlePromotionSelect envPromo
        { idleState with pendingPromotion := some ⟨e7, e8, PieceColor.w⟩ }
        PromotionPiece.q).2 = [Emit.moveCall e7 e8 (some PromotionPiece.q)] :=
  promotion_flow envPromo idleState e7 e8 alwaysAccept PieceColor.w
    PromotionPiece.q rfl rfl (Or.inl rfl) (by decide) (Or.inl ⟨rfl, rfl⟩)

/-- Claim C6: for a stored premove `(from, to)` with premoves enabled, once
the piece on `from` belongs to the side to move: if the legal-destination
table is absent (and a callback is registered) or its refreshed entry for
`from` contains `to`, the stored premove clears, the unset hook fires and
the move callback is invoked with `(from, to)` and no promotion; if the
table rejects `to`, the premove clears and the unset hook fires with no
callback invocation. -/
theorem premove_replay (env : InteractionEnv) (st : InteractionCore)
    (from_ to_ : Square) (piece : Piece)
    (hpm : st.premoveCurrent = some (from_, to_))
    (hen : env.premovableEnabled = true)
    (hpc : env.pieces from_ = some piece)
    (hturn : env.turnColor = some piece.color) :
    (∀ f, env.onMove = some f →
      (env.dests = none ∨ ∃ d, env.dests = some d ∧ to_ ∈ d from_) →
      premoveReplayEffect env st =
        ({ st with premoveCurrent := none },
         [Emit.premoveUnsetHook, Emit.moveCall from_ to_ none])) ∧
    (∀ d, env.dests = some d → to_ ∉ d from_ →
      premoveReplayEffect env st =
        ({ st with premoveCurrent := none }, [Emit.premoveUnsetHook])) := by
  constructor
  · rintro f hcb (hd | ⟨d, hd, hto⟩)
    · simp [premoveReplayEffect, hpm, hen, hpc, hturn, hd, hcb]
    · simp [premoveReplayEffect, hpm, hen, hpc, hturn, hd, hcb, hto]
  · intro d hd hto
    simp [premoveReplayEffect, hpm, hen, hpc, hturn, hd, hto]

/-- Witness for `premove_replay`: stored premove `(e7, e5)`, no external
table, white pawn on `e7`, white to move: the premove clears, the unset hook
fires and the callback is invoked with `(e7, e5, undefined)`. -/
theorem premove_replay_witness :
    premoveReplayEffect envReplay premoveArmedState =
      ({ premoveArmedState with premoveCurrent := none },
       [Emit.premoveUnsetHook, Emit.moveCall e7 e5 none]) :=
  (premove_replay envReplay premoveArmedState e7 e5 wP rfl rfl rfl rfl).1
    alwaysAccept rfl (Or.inl rfl)

/-- The left fold that keeps the strictly closer candidate stays within the
seed-plus-candidates list. -/
theorem foldl_closest_mem (dist : AnimPiece → ℤ) :
    ∀ (cs : List AnimPiece) (c : AnimPiece),
      cs.foldl (fun best x => if dist x < dist best then x else best) c ∈ c :: cs := by
  intro cs
  induction cs with
  | nil =>
    intro c
    simp
  | cons x xs ih =>
    intro c
    have h := ih (if dist x < dist c then x else c)
    simp only [List.foldl_cons]
    rcases List.mem_cons.mp h with h1 | h1
    · rw [h1]
      by_cases hx : dist x < dist c
      · simp [hx]
      · simp [hx]
    · exact List.mem_cons_of_mem _ (List.mem_cons_of_mem _ h1)

/-- The minimizer `minByDist` returns an element of its input list. -/
theorem minByDist_mem (dist : AnimPiece → ℤ) (l : List AnimPiece) (x : AnimPiece)
    (h : minByDist dist l = some x) : x ∈ l := by
  cases l with
  | nil => simp [minByDist] at h
  | cons c cs =>
    simp only [minByDist, Option.some.injEq] at h
    rw [← h]
    exact foldl_closest_mem dist cs c

/-- The greedy matching loop only ever appends to `animedOrigs`. -/
theorem greedyMatch_origs_mono (miss : List AnimPiece) :
    ∀ (ns : List AnimPiece) (anims : List (Square × AnimationVector))
      (origs : List Square) (x : Square), x ∈ origs →
      x ∈ (greedyMatch miss ns anims origs).2 := by
  intro ns
  induction ns with
  | nil =>
    intro anims origs x hx
    simpa [greedyMatch] using hx
  | cons newP rest ih =>
    intro anims origs x hx
    simp only [greedyMatch]
    split
    · exact ih _ _ x hx
    · exact ih _ _ x (List.mem_append_left _ hx)

/-- Every entry the greedy matching loop adds to `anims` is keyed by the
square of a `news` element and carries the motion vector from a consumed
`missings` element of identical color and role. -/
theorem greedyMatch_anims_spec (miss : List AnimPiece) :
    ∀ (ns : List AnimPiece) (anims : List (Square × AnimationVector))
      (origs : List Square) (pr : Square × AnimationVector),
      pr ∈ (greedyMatch miss ns anims origs).1 →
      pr ∈ anims ∨
        ∃ np, np ∈ ns ∧ ∃ m, m ∈ miss ∧
          samePiece m.piece np.piece = true ∧
          pr = (np.square,
            ⟨square2pos m.square, square2pos np.square,
             (square2pos m.square).1 - (square2pos np.square).1,
             (square2pos m.square).2 - (square2pos np.square).2⟩) ∧
          m.square ∈ (greedyMatch miss ns anims origs).2 := by
  intro ns
  induction ns with
  | nil =>
    intro anims origs pr hpr
    left
    simpa [greedyMatch] using hpr
  | cons newP rest ih =>
    intro anims origs pr hpr
    simp only [greedyMatch] at hpr ⊢
    split at hpr
    · rename_i heq
      rcases ih _ _ pr hpr with h | ⟨np, hnp, m, hm, hsp, hpr2, horig⟩
      · exact Or.inl h
      · exact Or.inr ⟨np, List.mem_cons_of_mem _ hnp, m, hm, hsp, hpr2, horig⟩
    · rename_i closest heq
      rcases ih _ _ pr hpr with h | ⟨np, hnp, m, hm, hsp, hpr2, horig⟩
      · rcases List.mem_append.mp h with h1 | h1
        · exact Or.inl h1
        · have hc := minByDist_mem _ _ _ heq
          have hc2 := List.mem_filter.mp hc
          have hsame : samePiece closest.piece newP.piece = true := by
            have := hc2.2
            simp only [Bool.and_eq_true] at this
            exact this.1
          refine Or.inr ⟨newP, List.mem_cons_self _ _, closest, hc2.1, hsame, ?_, ?_⟩
          · simpa using h1
          · exact greedyMatch_origs_mono miss rest _ _ closest.square
              (List.mem_append_right _ (List.mem_singleton.mpr rfl))
      · exact Or.inr ⟨np, List.mem_cons_of_mem _ hnp, m, hm, hsp, hpr2, horig⟩

/-- A `news` element records a square whose piece is new or changed. -/
theorem news_mem (prevPieces nextPieces : Pieces) (np : AnimPiece)
    (h : np ∈ news prevPieces nextPieces) :
    nextPieces np.square = some np.piece ∧ prevPieces np.square ≠ some np.piece := by
  rcases List.mem_filterMap.mp h with ⟨sq, _hsq, hmap⟩
  rcases hnext : nextPieces sq with _ | npc <;>
    rcases hprev : prevPieces sq with _ | ppc <;>
      simp only [hnext, hprev] at hmap
  · cases hmap
  · cases hmap
  · rcases hmap with ⟨rfl⟩
    simp [hnext, hprev]
  · by_cases hsp : samePiece ppc npc = true
    · simp [hsp] at hmap
    · rw [Bool.not_eq_true] at hsp
      simp only [hsp, Bool.false_eq_true, if_false, Option.some.injEq] at hmap
      subst hmap
      refine ⟨hnext, ?_⟩
      rw [hprev]
      intro hcontra
      have : ppc = npc := by injection hcontra
      subst this
      simp [samePiece] at hsp

/-- A `missings` element records a square whose piece disappeared or was
overwritten. -/
theorem missings_mem (prevPieces nextPieces : Pieces) (m : AnimPiece)
    (h : m ∈ missings prevPieces nextPieces) :
    prevPieces m.square = some m.piece ∧ nextPieces m.square ≠ some m.piece := by
  rcases List.mem_filterMap.mp h with ⟨sq, _hsq, hmap⟩
  rcases hnext : nextPieces sq with _ | npc <;>
    rcases hprev : prevPieces sq with _ | ppc <;>
      simp only [hnext, hprev] at hmap
  · cases hmap
  · rcases hmap with ⟨rfl⟩
    simp [hnext, hprev]
  · cases hmap
  · by_cases hsp : samePiece ppc npc = true
    · simp [hsp] at hmap
    · rw [Bool.not_eq_true] at hsp
      simp only [hsp, Bool.false_eq_true, if_false, Option.some.injEq] at hmap
      subst hmap
      refine ⟨hprev, ?_⟩
      rw [hnext]
      intro hcontra
      have : npc = ppc := by injection hcontra
      subst this
      simp [samePiece] at hsp

set_option maxRecDepth 8000 in
/-- Claim C3: `computeAnimPlan` partitions the disappeared pieces.  Every
`anims` entry is keyed by a square whose piece is new or changed and its
`fromPos` is the board position of a consumed disappeared piece of identical
color and role; every disappeared piece left unconsumed appears in `fadings`
under its original square (and `fadings` contains nothing else).  In
particular, for a lone pawn moving `e2` to `e4` the plan holds exactly one
vector keyed at `e4` with `fromPos` at `e2`'s coordinates and no fades, and
a bishop that disappears with no new same-type piece appears in `fadings`,
not `anims`. -/
theorem computeAnimPlan_spec (prevPieces nextPieces : Pieces) :
    (∀ pr ∈ (computeAnimPlan prevPieces nextPieces).anims,
      ∃ npc, nextPieces pr.1 = some npc ∧ prevPieces pr.1 ≠ some npc ∧
        ∃ m, m ∈ missings prevPieces nextPieces ∧
          m.square ∈ consumedOrigs prevPieces nextPieces ∧
          prevPieces m.square = some m.piece ∧
          samePiece m.piece npc = true ∧
          pr.2.fromPos = square2pos m.square) ∧
    (∀ m, m ∈ missings prevPieces nextPieces →
      prevPieces m.square = some m.piece ∧ nextPieces m.square ≠ some m.piece ∧
      (m.square ∉ consumedOrigs prevPieces nextPieces →
        (m.square, m.piece) ∈ (computeAnimPlan prevPieces nextPieces).fadings)) ∧
    (∀ fd ∈ (computeAnimPlan prevPieces nextPieces).fadings,
      ∃ m, m ∈ missings prevPieces nextPieces ∧
        m.square ∉ consumedOrigs prevPieces nextPieces ∧ fd = (m.square, m.piece)) ∧
    computeAnimPlan pawnPrev pawnNext =
      { anims := [(e4, ⟨square2pos e2, square2pos e4, 0, -2⟩)], fadings := [] } ∧
    computeAnimPlan bishopPrev emptyPieces =
      { anims := [], fadings := [(c1, wB)] } := by
  refine ⟨?_, ?_, ?_, by decide, by decide⟩
  · intro pr hpr
    have hpr1 : pr ∈ (greedyMatch (missings prevPieces nextPieces)
        (news prevPieces nextPieces) [] []).1 := by
      simpa [computeAnimPlan] using hpr
    rcases greedyMatch_anims_spec _ _ _ _ _ hpr1 with h | ⟨np, hnp, m, hm, hsp, hpr2, horig⟩
    · simp at h
    · obtain ⟨hnext, hprev⟩ := news_mem _ _ _ hnp
      have hm2 := missings_mem _ _ _ hm
      refine ⟨np.piece, ?_, ?_, m, hm, ?_, hm2.1, hsp, ?_⟩
      · rw [hpr2]
        exact hnext
      · rw [hpr2]
        exact hprev
      · simpa [consumedOrigs] using horig
      · rw [hpr2]
  · intro m hm
    have hm2 := missings_mem _ _ _ hm
    refine ⟨hm2.1, hm2.2, ?_⟩
    intro hnc
    have hnc2 : (!decide (m.square ∈ consumedOrigs prevPieces nextPieces)) = true := by
      simpa using hnc
    simp only [computeAnimPlan, consumedOrigs] at hnc2 ⊢
    exact List.mem_map.mpr ⟨m, List.mem_filter.mpr ⟨hm, hnc2⟩, rfl⟩
  · intro fd hfd
    simp only [computeAnimPlan] at hfd
    rcases List.mem_map.mp hfd with ⟨m, hmf, hfd2⟩
    have hmf2 := List.mem_filter.mp hmf
    refine ⟨m, hmf2.1, ?_, hfd2.symm⟩
    have := hmf2.2
    simpa [consumedOrigs] using this

/-- Witness for `computeAnimPlan_spec`: the single `anims` entry of the
`e2`-to-`e4` pawn fixture is backed by the consumed pawn that disappeared
from `e2`. -/
theorem computeAnimPlan_spec_witness :
    ∃ npc, pawnNext e4 = some npc ∧ pawnPrev e4 ≠ some npc ∧
      ∃ m, m ∈ missings pawnPrev pawnNext ∧
        m.square ∈ consumedOrigs pawnPrev pawnNext ∧
        pawnPrev m.square = some m.piece ∧
        samePiece m.piece npc = true ∧
        (⟨square2pos e2, square2pos e4, 0, -2⟩ : AnimationVector).fromPos =
          square2pos m.square :=
  (computeAnimPlan_spec pawnPrev pawnNext).1
    (e4, ⟨square2pos e2, square2pos e4, 0, -2⟩) (by decide)

/-- Claim C8, counterexample: deleting the unrecognized character `x` from
the placement string `"xp"` changes the parsed position (`readFen "xp"` puts
the black pawn on b8, `readFen "p"` puts it on a8), because an unrecognized
character still advances the file cursor. -/
theorem readFen_skip_counterexample :
    readFen "xp".toList ≠ readFen "p".toList := by
  decide

/-- Claim C8, amended: `readFen` never throws (it is a total function), and
an unrecognized character — not a digit 1-8, not `/`, not a terminator, not
a recognized piece letter — places no piece but still advances the file
cursor by one, so deleting it can shift the pieces parsed after it. -/
theorem readFenAux_unrecognized (c : Char) (l : List Char) (rank : ℤ)
    (file : ℕ) (acc : Pieces)
    (h1 : c ≠ '/') (h2 : ¬(c = ' ' ∨ c = '['))
    (h3 : ¬(49 ≤ c.toNat ∧ c.toNat ≤ 56))
    (h4 : charToRole (toLowerChar c) = none) :
    readFenAux (c :: l) rank file acc = readFenAux l rank (file + 1) acc := by
  simp only [readFenAux, if_neg h1, if_neg h2, if_neg h3, h4]

/-- Witness for `readFenAux_unrecognized`: the character `x` is skipped over
while consuming one file slot. -/
theorem readFenAux_unrecognized_witness :
    readFenAux ('x' :: "p".toList) 7 0 emptyPieces =
      readFenAux "p".toList 7 1 emptyPieces :=
  readFenAux_unrecognized 'x' "p".toList 7 0 emptyPieces
    (by decide) (by decide) (by decide) (by decide)

/-- The empty-run digit is never a separator or terminator character. -/
theorem digitChar_not_special (e : ℕ) :
    digitChar e ≠ ' ' ∧ digitChar e ≠ '/' ∧ digitChar e ≠ '[' := by
  unfold digitChar
  split_ifs <;> exact ⟨by decide, by decide, by decide⟩

/-- Parsing an empty-run digit advances the file cursor by the digit. -/
theorem readFenAux_digit (e : ℕ) (h1 : 1 ≤ e) (h2 : e ≤ 8) (l : List Char)
    (rank : ℤ) (file : ℕ) (acc : Pieces) :
    readFenAux (digitChar e :: l) rank file acc =
      readFenAux l rank (file + e) acc := by
  interval_cases e <;> rfl

/-- The characters emitted for a piece parse back to exactly that piece:
`charToRole` recovers the role from the lowercased letter, the
case-comparison recovers the color, and the letter is neither a separator,
a terminator nor a digit. -/
theorem pieceChar_facts (pc : Piece) :
    charToRole (toLowerChar (pieceChar pc)) = some pc.role ∧
    ((if pieceChar pc = toLowerChar (pieceChar pc) then PieceColor.b
      else PieceColor.w) = pc.color) ∧
    pieceChar pc ≠ '/' ∧ ¬(pieceChar pc = ' ' ∨ pieceChar pc = '[') ∧
    ¬(49 ≤ (pieceChar pc).toNat ∧ (pieceChar pc).toNat ≤ 56) := by
  obtain ⟨c, ro⟩ := pc
  cases c <;> cases ro <;>
    exact ⟨by decide, by decide, by decide, by decide, by decide⟩

/-- Evaluating `sqOf` at an in-range file and a rank index coming from a `Fin 8`. -/
theorem sqOf_eq (file : ℕ) (hf : file < 8) (r : Fin 8) :
    sqOf (file : ℤ) ((r : ℕ) : ℤ) = ((⟨file, hf⟩ : Fin 8), r) := by
  unfold sqOf
  refine Prod.ext_iff.mpr ⟨Fin.ext ?_, Fin.ext ?_⟩
  · simp [Nat.mod_eq_of_lt hf]
  · simp [Nat.mod_eq_of_lt r.isLt]

/-- Parsing a piece letter at file `file < 8` of rank `r` inserts exactly
that piece at that square and advances the file cursor by one. -/
theorem readFenAux_piece (pc : Piece) (l : List Char) (r : Fin 8) (file : ℕ)
    (hf : file < 8) (acc : Pieces) :
    readFenAux (pieceChar pc :: l) ((r : ℕ) : ℤ) file acc =
      readFenAux l ((r : ℕ) : ℤ) (file + 1)
        (setPiece acc ((⟨file, hf⟩ : Fin 8), r) pc) := by
  obtain ⟨hrole, hcol, h1, h2, h3⟩ := pieceChar_facts pc
  have hcond : file < 8 ∧ (0 : ℤ) ≤ ((r : ℕ) : ℤ) ∧ ((r : ℕ) : ℤ) < 8 :=
    ⟨hf, Int.natCast_nonneg _, by exact_mod_cast r.isLt⟩
  simp only [readFenAux, if_neg h1, if_neg h2, if_neg h3, hrole, if_pos hcond,
    sqOf_eq file hf r, hcol]

/-- A file-loop tail starting at `n` forces `n ≤ 8`. -/
theorem isTailFrom_le (fs : List (Fin 8)) : ∀ n, isTailFrom fs n = true → n ≤ 8 := by
  induction fs with
  | nil =>
    intro n h
    simp only [isTailFrom, beq_iff_eq] at h
    omega
  | cons x xs ih =>
    intro n h
    simp only [isTailFrom, Bool.and_eq_true, beq_iff_eq] at h
    have := ih (n + 1) h.2
    omega

/-- Every member of a file-loop tail starting at `n` has index at least `n`. -/
theorem isTailFrom_mem (fs : List (Fin 8)) :
    ∀ n y, isTailFrom fs n = true → y ∈ fs → n ≤ (y : ℕ) := by
  induction fs with
  | nil =>
    intro n y _ hy
    cases hy
  | cons x xs ih =>
    intro n y h hy
    simp only [isTailFrom, Bool.and_eq_true, beq_iff_eq] at h
    rcases List.mem_cons.mp hy with rfl | hy2
    · exact le_of_eq h.1.symm
    · have := ih (n + 1) y h.2 hy2
      omega

/-- Overriding along no files changes nothing. -/
theorem overrideOn_nil (p acc : Pieces) (r : Fin 8) : overrideOn p acc r [] = acc := by
  funext s
  unfold overrideOn
  cases p s <;> simp

/-- A file empty in `p` contributes nothing to the override. -/
theorem overrideOn_cons_none (p acc : Pieces) (r : Fin 8) (x : Fin 8)
    (xs : List (Fin 8)) (hp : p (x, r) = none) :
    overrideOn p acc r (x :: xs) = overrideOn p acc r xs := by
  funext s
  unfold overrideOn
  rcases hps : p s with _ | q
  · rfl
  · by_cases hsr : s.2 = r
    · by_cases hsx : s.1 ∈ xs
      · simp [hsr, hsx]
      · by_cases hsx1 : s.1 = x
        · exfalso
          have hs : s = (x, r) := Prod.ext_iff.mpr ⟨hsx1, hsr⟩
          rw [hs, hp] at hps
          cases hps
        · simp [hsr, hsx, hsx1]
    · simp [hsr]

/-- Inserting the piece of an occupied file and overriding along the later
files equals overriding along the file list headed by that file. -/
theorem overrideOn_cons_some (p acc : Pieces) (r : Fin 8) (x : Fin 8)
    (xs : List (Fin 8)) (pc : Piece) (hp : p (x, r) = some pc) :
    overrideOn p (setPiece acc (x, r) pc) r xs = overrideOn p acc r (x :: xs) := by
  funext s
  unfold overrideOn setPiece
  rcases hps : p s with _ | q
  · have hne : s ≠ (x, r) := by
      intro hcontra
      rw [hcontra, hp] at hps
      cases hps
    simp [hne]
  · by_cases hsr : s.2 = r
    · by_cases hsx : s.1 ∈ xs
      · have hmem : s.1 ∈ x :: xs := List.mem_cons_of_mem _ hsx
        simp [hsr, hsx, hmem]
      · by_cases hsx1 : s.1 = x
        · have hseq : s = (x, r) := Prod.ext_iff.mpr ⟨hsx1, hsr⟩
          have hq : pc = q := by
            rw [hseq, hp] at hps
            injection hps
          have hmem : s.1 ∈ x :: xs := by
            rw [hsx1]
            exact List.mem_cons_self _ _
          simp [hsr, hsx, hseq, hmem, hq]
        · have hnm : s.1 ∉ x :: xs := by
            intro hmem
            rcases List.mem_cons.mp hmem with h | h
            · exact hsx1 h
            · exact hsx h
          have hne : s ≠ (x, r) := by
            intro hcontra
            exact hsx1 (congrArg Prod.fst hcontra)
          simp [hsr, hsx, hnm, hne]
    · have hne : s ≠ (x, r) := by
        intro hcontra
        exact hsr (congrArg Prod.snd hcontra)
      simp [hsr, hne]

/-- Parsing the rank string emitted for the remaining files `fs` (with
pending empty-run counter `e` and the parser's file cursor at `f`) extends
the accumulator with exactly the rank-`r` pieces at those files and leaves
the cursor at 8. -/
theorem readFenAux_writeRankAux (p : Pieces) (r : Fin 8) :
    ∀ (fs : List (Fin 8)) (e f : ℕ) (acc : Pieces) (rest : List Char),
      isTailFrom fs (f + e) = true →
      readFenAux (writeRankAux p r fs e ++ rest) ((r : ℕ) : ℤ) f acc =
        readFenAux rest ((r : ℕ) : ℤ) 8 (overrideOn p acc r fs) := by
  intro fs
  induction fs with
  | nil =>
    intro e f acc rest ht
    have hfe : f + e = 8 := by simpa [isTailFrom] using ht
    rw [overrideOn_nil]
    rcases Nat.eq_zero_or_pos e with he | he
    · subst he
      have hf : f = 8 := by omega
      subst hf
      simp only [writeRankAux, show flushEmpty 0 = [] from rfl, List.nil_append]
    · simp only [writeRankAux, flushEmpty, if_pos he, List.cons_append,
        List.nil_append]
      rw [readFenAux_digit e he (by omega), hfe]
  | cons x xs ih =>
    intro e f acc rest ht
    have h1 : (x : ℕ) = f + e ∧ isTailFrom xs (f + e + 1) = true := by
      simpa [isTailFrom] using ht
    have hfe8 : f + e < 8 := by
      have := x.isLt
      omega
    rcases hp : p (x, r) with _ | pc
    · simp only [writeRankAux, hp]
      rw [ih (e + 1) f acc rest h1.2]
      rw [overrideOn_cons_none p acc r x xs hp]
    · simp only [writeRankAux, hp, List.append_assoc, List.cons_append]
      have hstep :
          readFenAux (flushEmpty e ++ (pieceChar pc :: (writeRankAux p r xs 0 ++ rest)))
              ((r : ℕ) : ℤ) f acc =
            readFenAux (writeRankAux p r xs 0 ++ rest) ((r : ℕ) : ℤ) (f + e + 1)
              (setPiece acc ((⟨f + e, hfe8⟩ : Fin 8), r) pc) := by
        rcases Nat.eq_zero_or_pos e with he | he
        · subst he
          simp only [show flushEmpty 0 = [] from rfl, List.nil_append]
          exact readFenAux_piece pc _ r f hfe8 acc
        · simp only [flushEmpty, if_pos he, List.cons_append, List.nil_append]
          rw [readFenAux_digit e he (by omega)]
          exact readFenAux_piece pc _ r (f + e) hfe8 acc
      rw [hstep]
      have hxeq : ((⟨f + e, hfe8⟩ : Fin 8), r) = ((x, r) : Square) := by
        refine Prod.ext_iff.mpr ⟨Fin.ext ?_, rfl⟩
        simp [h1.1]
      rw [hxeq]
      rw [ih 0 (f + e + 1) (setPiece acc (x, r) pc) rest h1.2]
      rw [overrideOn_cons_some p acc r x xs pc hp]

/-- Parsing one full rank string: the accumulator gains rank `r` of `p`. -/
theorem readFenAux_writeRank (p : Pieces) (r : Fin 8) (rz : ℤ)
    (hrz : rz = ((r : ℕ) : ℤ)) (acc : Pieces) (rest : List Char) :
    readFenAux (writeRank p r ++ rest) rz 0 acc =
      readFenAux rest rz 8 (overrideOn p acc r allFiles) := by
  subst hrz
  exact readFenAux_writeRankAux p r allFiles 0 0 acc rest (by decide)

/-- The `/` step of the parser: decrement the rank, reset the file. -/
theorem readFenAux_slash (rz rz2 : ℤ) (h1 : ¬rz - 1 < 0) (h2 : rz2 = rz - 1)
    (l : List Char) (file : ℕ) (acc : Pieces) :
    readFenAux ('/' :: l) rz file acc = readFenAux l rz2 0 acc := by
  subst h2
  simp only [readFenAux, if_neg h1, eq_self_iff_true, if_true]

/-- Every character of a rank string is an empty-run digit or a piece
letter; in particular it is neither a space nor a slash. -/
theorem writeRankAux_chars (p : Pieces) (r : Fin 8) :
    ∀ (fs : List (Fin 8)) (e : ℕ) (c : Char), c ∈ writeRankAux p r fs e →
      c ≠ ' ' ∧ c ≠ '/' := by
  intro fs
  induction fs with
  | nil =>
    intro e c hc
    simp only [writeRankAux, flushEmpty] at hc
    split at hc
    · rcases List.mem_singleton.mp hc with rfl
      exact ⟨(digitChar_not_special e).1, (digitChar_not_special e).2.1⟩
    · cases hc
  | cons x xs ih =>
    intro e c hc
    simp only [writeRankAux] at hc
    rcases hp : p (x, r) with _ | pc <;> simp only [hp] at hc
    · exact ih (e + 1) c hc
    · rcases List.mem_append.mp hc with h | h
      · simp only [flushEmpty] at h
        split at h
        · rcases List.mem_singleton.mp h with rfl
          exact ⟨(digitChar_not_special e).1, (digitChar_not_special e).2.1⟩
        · cases h
      · rcases List.mem_cons.mp h with rfl | h2
        · obtain ⟨_, _, hs1, hs2, _⟩ := pieceChar_facts pc
          refine ⟨?_, hs1⟩
          intro hsp
          exact hs2 (Or.inl hsp)
        · exact ih 0 c h2

/-- A character of a slash-joined list of strings is a slash or a character
of one of the strings. -/
theorem joinSlash_chars :
    ∀ (ls : List (List Char)) (c : Char), c ∈ joinSlash ls →
      c = '/' ∨ ∃ s, s ∈ ls ∧ c ∈ s := by
  intro ls
  induction ls with
  | nil =>
    intro c hc
    simp [joinSlash] at hc
  | cons s rest ih =>
    intro c hc
    cases rest with
    | nil =>
      right
      exact ⟨s, List.mem_singleton.mpr rfl, by simpa [joinSlash] using hc⟩
    | cons t rrest =>
      rw [show joinSlash (s :: t :: rrest) = s ++ '/' :: joinSlash (t :: rrest)
        from rfl] at hc
      rcases List.mem_append.mp hc with h | h
      · exact Or.inr ⟨s, List.mem_cons_self _ _, h⟩
      · rcases List.mem_cons.mp h with rfl | h2
        · exact Or.inl rfl
        · rcases ih c h2 with h3 | ⟨s2, hs2, hcs2⟩
          · exact Or.inl h3
          · exact Or.inr ⟨s2, List.mem_cons_of_mem _ hs2, hcs2⟩

/-- The serializer `writeFen` emits no space. -/
theorem writeFen_no_space (p : Pieces) : ∀ c ∈ writeFen p, c ≠ ' ' := by
  intro c hc
  rcases joinSlash_chars _ c hc with rfl | ⟨s, hs, hcs⟩
  · decide
  · rcases List.mem_map.mp hs with ⟨r, _, rfl⟩
    exact (writeRankAux_chars p r allFiles 0 c hcs).1

/-- A predicate-true list is its own `takeWhile`. -/
theorem takeWhile_of_all (l : List Char) (h : ∀ c ∈ l, c ≠ ' ') :
    l.takeWhile (fun c => c != ' ') = l := by
  induction l with
  | nil => rfl
  | cons c cs ih =>
    rw [List.takeWhile_cons]
    have hc : (c != ' ') = true := by
      simpa using h c (List.mem_cons_self _ _)
    rw [hc]
    simp only [if_true]
    rw [ih fun d hd => h d (List.mem_cons_of_mem _ hd)]

/-- The serializer `writeFen` always contains a rank separator. -/
theorem slash_mem_writeFen (p : Pieces) : '/' ∈ writeFen p := by
  rw [show writeFen p = writeRank p 7 ++ '/' :: joinSlash
      ((ranksDesc.drop 1).map (writeRank p)) from rfl]
  exact List.mem_append_right _ (List.mem_cons_self _ _)

/-- The serialization is never the literal `'start'`. -/
theorem writeFen_ne_start (p : Pieces) : writeFen p ≠ "start".toList := by
  intro h
  have hs := slash_mem_writeFen p
  rw [h] at hs
  have : '/' ∉ "start".toList := by decide
  exact this hs

/-- The serialization is never empty. -/
theorem writeFen_ne_nil (p : Pieces) : writeFen p ≠ [] := by
  intro h
  have hs := slash_mem_writeFen p
  rw [h] at hs
  cases hs

/-- Overriding along the full file list replaces rank `r` wholesale (where
`p` has a piece). -/
theorem overrideOn_allFiles (p acc : Pieces) (r : Fin 8) (s : Square) :
    overrideOn p acc r allFiles s =
      if s.2 = r then (match p s with | some pc => some pc | none => acc s)
      else acc s := by
  unfold overrideOn
  by_cases hsr : s.2 = r
  · rcases p s with _ | pc <;> simp [hsr, mem_allFiles s.1]
  · rcases p s with _ | pc <;> simp [hsr]

/-- Claim C1: parsing the serialization recovers the position, for every
position `p` (a map from the 64 squares to optional pieces):
`readFen (writeFen p) = p` by key/value (pointwise) equality. -/
theorem readFen_writeFen (p : Pieces) : readFen (writeFen p) = p := by
  have htw : (writeFen p).takeWhile (fun c => c != ' ') = writeFen p :=
    takeWhile_of_all _ (writeFen_no_space p)
  simp only [readFen, htw, if_neg (writeFen_ne_nil p),
    if_neg (writeFen_ne_start p)]
  rw [show writeFen p =
      writeRank p 7 ++ '/' :: (writeRank p 6 ++ '/' :: (writeRank p 5 ++ '/' ::
        (writeRank p 4 ++ '/' :: (writeRank p 3 ++ '/' :: (writeRank p 2 ++ '/' ::
          (writeRank p 1 ++ '/' :: (writeRank p 0 ++ []))))))) from by
    simp [writeFen, ranksDesc, joinSlash]]
  rw [readFenAux_writeRank p 7 7 (by decide)]
  rw [readFenAux_slash 7 6 (by decide) (by decide)]
  rw [readFenAux_writeRank p 6 6 (by decide)]
  rw [readFenAux_slash 6 5 (by decide) (by decide)]
  rw [readFenAux_writeRank p 5 5 (by decide)]
  rw [readFenAux_slash 5 4 (by decide) (by decide)]
  rw [readFenAux_writeRank p 4 4 (by decide)]
  rw [readFenAux_slash 4 3 (by decide) (by decide)]
  rw [readFenAux_writeRank p 3 3 (by decide)]
  rw [readFenAux_slash 3 2 (by decide) (by decide)]
  rw [readFenAux_writeRank p 2 2 (by decide)]
  rw [readFenAux_slash 2 1 (by decide) (by decide)]
  rw [readFenAux_writeRank p 1 1 (by decide)]
  rw [readFenAux_slash 1 0 (by decide) (by decide)]
  rw [readFenAux_writeRank p 0 0 (by decide)]
  show (overrideOn p _ 0 allFiles) = p
  funext s
  obtain ⟨sf, sr⟩ := s
  simp only [overrideOn_allFiles, emptyPieces]
  rcases hp : p (sf, sr) with _ | pc <;> fin_cases sr <;> simp [hp]

end Chessiro
